import Mathlib

/-!
# Verification of the Track Resolution Engine
# (spotify-playlist-creator)

A shallow embedding, in Lean 4, of the track-resolution core of the
repository: text normalisation (`src/text_utils.py`), the weighted match
scorers (`src/spotify_client.py` / `src/track_finder.py`), the staged
query planner and search orchestrator
(`SpotifyPlaylistCreator.search_spotify_track` in `src/spotify_client.py`)
and metadata extraction (`src/metadata_utils.py`).

Modelling conventions:
* Python strings are Lean `String`s (lists of unicode scalar chars).
* Python floats are modelled as exact rationals (`ℚ`).
* Behaviour of the Python standard library that the sources call
  (`re.sub` with the nine fixed patterns, `difflib.SequenceMatcher.ratio`,
  `str.strip` / `str.lower`) is embedded by implementing the library
  algorithms for exactly the constructs the sources use.  Documented
  limits: `\s`, `\b`, `str.strip` and `str.lower` are modelled for ASCII
  plus the Greek block (the only scripts the program manipulates), and
  `difflib`'s autojunk heuristic (which only alters results for
  sequences of length ≥ 200) is not modelled.
* The remote Spotify client (`self.sp.search`) is an oracle parameter
  `SearchOracle`; a raised exception is the `err` outcome.
-/

set_option maxHeartbeats 1000000

namespace SPC

/- Batteries marks rational arithmetic `@[irreducible]`, which blocks
the `decide` tactic's evaluator on concrete score computations; restore
the default transparency for this file. -/
attribute [local semireducible] Rat.add Rat.mul Rat.sub Rat.inv
  Rat.ofScientific

/-! ## Python string primitives -/

/-- The whitespace class used for Python's `str.strip` and the regex `\s`
(ASCII whitespace; wider Unicode whitespace is not used by the program). -/
def pySpace (c : Char) : Bool :=
  c = ' ' ∨ c = '\t' ∨ c = '\n' ∨ c = '\x0d' ∨ c = '\x0b' ∨ c = '\x0c'

/-- Python `str.strip()` on a list of characters. -/
def pyStripL (l : List Char) : List Char :=
  ((l.dropWhile pySpace).reverse.dropWhile pySpace).reverse

/-- Python `str.strip()`. -/
def pyStrip (s : String) : String := ⟨pyStripL s.data⟩

/-- Python `str.lower` per character: ASCII letters plus the Greek
letters the transliteration table contains.  (The contextual final-sigma
rule of full Unicode lowercasing is not exercised by anything proved
here.) -/
def pyLower (c : Char) : Char :=
  if 'A' ≤ c ∧ c ≤ 'Z' then Char.ofNat (c.toNat + 32)
  else if 'Α' ≤ c ∧ c ≤ 'Ρ' then Char.ofNat (c.toNat + 32)
  else if 'Σ' ≤ c ∧ c ≤ 'Ϋ' then Char.ofNat (c.toNat + 32)
  else if c = 'Ά' then 'ά'
  else if c = 'Έ' then 'έ'
  else if c = 'Ή' then 'ή'
  else if c = 'Ί' then 'ί'
  else if c = 'Ό' then 'ό'
  else if c = 'Ύ' then 'ύ'
  else if c = 'Ώ' then 'ώ'
  else c

/-- Python `str.lower()`. -/
def pyLowerStr (s : String) : String := ⟨s.data.map pyLower⟩

/-! ## `greek_to_greeklish` (src/text_utils.py, lines 27–45)

The identical table also appears as
`SpotifyPlaylistCreator._greek_to_greeklish` in `src/spotify_client.py`
(lines 53–71); one definition embeds both. -/

/-- The Greek → Greeklish table of `src/text_utils.py`, in source order;
values are the replacement character lists. -/
def greekTable : List (Char × List Char) :=
  [('α', ['a']), ('ά', ['a']), ('β', ['v']), ('γ', ['g']), ('δ', ['d']),
   ('ε', ['e']), ('έ', ['e']),
   ('ζ', ['z']), ('η', ['i']), ('ή', ['i']), ('θ', ['t', 'h']),
   ('ι', ['i']), ('ί', ['i']), ('ϊ', ['i']),
   ('ΐ', ['i']), ('κ', ['k']), ('λ', ['l']), ('μ', ['m']), ('ν', ['n']),
   ('ξ', ['x']), ('ο', ['o']),
   ('ό', ['o']), ('π', ['p']), ('ρ', ['r']), ('σ', ['s']), ('ς', ['s']),
   ('τ', ['t']), ('υ', ['y']),
   ('ύ', ['y']), ('φ', ['f']), ('χ', ['c', 'h']), ('ψ', ['p', 's']),
   ('ω', ['o']), ('ώ', ['o']),
   ('Α', ['A']), ('Ά', ['A']), ('Β', ['V']), ('Γ', ['G']), ('Δ', ['D']),
   ('Ε', ['E']), ('Έ', ['E']),
   ('Ζ', ['Z']), ('Η', ['I']), ('Ή', ['I']), ('Θ', ['T', 'h']),
   ('Ι', ['I']), ('Ί', ['I']), ('Ϊ', ['I']),
   ('Κ', ['K']), ('Λ', ['L']), ('Μ', ['M']), ('Ν', ['N']), ('Ξ', ['X']),
   ('Ο', ['O']), ('Ό', ['O']),
   ('Π', ['P']), ('Ρ', ['R']), ('Σ', ['S']), ('Τ', ['T']), ('Υ', ['Y']),
   ('Ύ', ['Y']), ('Φ', ['F']),
   ('Χ', ['C', 'h']), ('Ψ', ['P', 's']), ('Ω', ['O']), ('Ώ', ['O'])]

/-- Dictionary lookup (`dict.get`): first matching key. -/
def lookupG : List (Char × List Char) → Char → Option (List Char)
  | [], _ => none
  | p :: rest, c => if p.1 = c then some p.2 else lookupG rest c

/-- `greek_to_greeklish_map.get(c, c)` applied to one character. -/
def trCharL (c : Char) : List Char :=
  match lookupG greekTable c with
  | some v => v
  | none => [c]

/-- `greek_to_greeklish(text)` of `src/text_utils.py`. -/
def greekToGreeklish (s : String) : String :=
  if s = "" then "" else ⟨(s.data.map trCharL).flatten⟩

/-! ## A tiny backtracking regex engine (the fragment `re.sub` needs)

`clean_title` (src/text_utils.py, lines 3–25; identically
`SpotifyPlaylistCreator._clean_title`, src/spotify_client.py 29–51)
calls `re.sub(pattern, repl, s, flags=re.IGNORECASE)` with nine fixed
patterns plus the whitespace collapse `\s+`.  These patterns use only:
single-character atoms (case-insensitive literals, `.`, `\s`, character
classes), greedy `*` and `?` over single-character atoms, alternation
of literal sequences, the word boundary `\b` and the end anchor `$`.
The engine below implements Python's scanning and backtracking order
for exactly this fragment: at each position the first match in
preference order (alternatives left to right, quantifiers greedy,
longest first) is taken, and `re.sub` rewrites each leftmost
non-overlapping match, continuing after its end. -/

inductive RAtom where
  | one (p : Char → Bool)
  | star (p : Char → Bool)
  | opt (p : Char → Bool)
  | wb
  | eos

inductive RItem where
  | atom (a : RAtom)
  | alt (alts : List (List RAtom))

/-- Word character for `\b`: ASCII alphanumerics, underscore, and the
Greek block (the only scripts the program's inputs use). -/
def isWordChar (c : Char) : Bool :=
  ('a' ≤ c ∧ c ≤ 'z') ∨ ('A' ≤ c ∧ c ≤ 'Z') ∨ ('0' ≤ c ∧ c ≤ '9') ∨
  c = '_' ∨ (0x370 ≤ c.toNat ∧ c.toNat < 0x400)

/-- Matcher state: the character just before the current position (for
`\b`) and the remaining input. -/
abbrev MState := Option Char × List Char

/-- Greedy `*` over a one-character predicate: all stopping points,
longest first. -/
def starOpts (p : Char → Bool) : Option Char → List Char → List MState
  | pv, [] => [(pv, [])]
  | pv, c :: rest =>
    if p c then starOpts p (some c) rest ++ [(pv, c :: rest)]
    else [(pv, c :: rest)]

/-- All ways one atom can match, in Python's preference order. -/
def atomOpts : RAtom → MState → List MState
  | .one _, (_, []) => []
  | .one p, (_, c :: rest) => if p c then [(some c, rest)] else []
  | .star p, (pv, s) => starOpts p pv s
  | .opt _, (pv, []) => [(pv, [])]
  | .opt p, (pv, c :: rest) =>
    if p c then [(some c, rest), (pv, c :: rest)] else [(pv, c :: rest)]
  | .wb, (pv, s) =>
    let left := match pv with | none => false | some c => isWordChar c
    let right := match s with | [] => false | c :: _ => isWordChar c
    if left ≠ right then [(pv, s)] else []
  | .eos, (pv, s) => if s = [] ∨ s = ['\n'] then [(pv, s)] else []

/-- All ways a sequence of atoms can match, in preference order. -/
def seqAtoms : List RAtom → MState → List MState
  | [], st => [st]
  | a :: rest, st => (atomOpts a st).flatMap (seqAtoms rest)

/-- All ways one item can match. -/
def itemOpts : RItem → MState → List MState
  | .atom a, st => atomOpts a st
  | .alt alts, st => alts.flatMap (fun sq => seqAtoms sq st)

/-- All ways a whole pattern can match at the current position. -/
def seqItems : List RItem → MState → List MState
  | [], st => [st]
  | it :: rest, st => (itemOpts it st).flatMap (seqItems rest)

/-- `re.sub(pattern, repl, s)`, fuelled for structural recursion:
leftmost non-overlapping matches are replaced; positions without a
match emit their character.  (None of the ten patterns used can match
the empty string; the defensive else-branch advances one character as
Python would.)  Every step strictly shortens the input, so the fuel
`reSub` supplies is sufficient. -/
def reSubF (pat : List RItem) (repl : List Char) :
    Nat → Option Char → List Char → List Char
  | 0, _, _ => []
  | _ + 1, _, [] => []
  | fuel + 1, pv, c :: rest =>
    match seqItems pat (pv, c :: rest) with
    | [] => c :: reSubF pat repl fuel (some c) rest
    | (pv', s') :: _ =>
      if s'.length < (c :: rest).length then
        repl ++ reSubF pat repl fuel pv' s'
      else c :: reSubF pat repl fuel (some c) rest

/-- `re.sub(pattern, repl, s)` on a character list. -/
def reSub (pat : List RItem) (repl : List Char) (pv : Option Char)
    (s : List Char) : List Char :=
  reSubF pat repl (s.length + 1) pv s

/-! ### The nine patterns of `clean_title`, in source order -/

/-- `.` (anything but a newline). -/
def anyCh (c : Char) : Bool := c ≠ '\n'

/-- The character class `[α-ωΑ-Ω]` (with `re.IGNORECASE` the two case
ranges cover each other). -/
def greekCls (c : Char) : Bool :=
  (0x3B1 ≤ c.toNat ∧ c.toNat ≤ 0x3C9) ∨ (0x391 ≤ c.toNat ∧ c.toNat ≤ 0x3A9)

/-- A case-insensitive literal, as a sequence of atoms. -/
def litA (s : String) : List RAtom :=
  s.data.map fun t => RAtom.one fun c => c.toLower = t.toLower

/-- A case-insensitive literal, as a sequence of items. -/
def litI (s : String) : List RItem := (litA s).map RItem.atom

/-- `\s*\(.*lyric.*\)` -/
def pat1 : List RItem :=
  [.atom (.star pySpace), .atom (.one (· = '(')), .atom (.star anyCh)] ++
  litI "lyric" ++ [.atom (.star anyCh), .atom (.one (· = ')'))]

/-- `\s*\[.*\]` -/
def pat2 : List RItem :=
  [.atom (.star pySpace), .atom (.one (· = '[')), .atom (.star anyCh),
   .atom (.one (· = ']'))]

/-- `\s*\(.*official.*\)` -/
def pat3 : List RItem :=
  [.atom (.star pySpace), .atom (.one (· = '(')), .atom (.star anyCh)] ++
  litI "official" ++ [.atom (.star anyCh), .atom (.one (· = ')'))]

/-- `\s*\(?official.*video\)?` -/
def pat4 : List RItem :=
  [.atom (.star pySpace), .atom (.opt (· = '('))] ++ litI "official" ++
  [.atom (.star anyCh)] ++ litI "video" ++ [.atom (.opt (· = ')'))]

/-- `\s*\(?official.*audio\)?` -/
def pat5 : List RItem :=
  [.atom (.star pySpace), .atom (.opt (· = '('))] ++ litI "official" ++
  [.atom (.star anyCh)] ++ litI "audio" ++ [.atom (.opt (· = ')'))]

/-- `\b(HD|HQ|4K|1080p|720p)\b` -/
def pat6 : List RItem :=
  [.atom .wb,
   .alt [litA "HD", litA "HQ", litA "4K", litA "1080p", litA "720p"],
   .atom .wb]

/-- `\s*[-–]\s*(lyrics?|official|video|audio|HD|HQ|4K|1080p|720p).*$` -/
def pat7 : List RItem :=
  [.atom (.star pySpace), .atom (.one fun c => c = '-' ∨ c = '–'),
   .atom (.star pySpace),
   .alt [litA "lyric" ++ [.opt fun c => c.toLower = 's'],
         litA "official", litA "video", litA "audio",
         litA "HD", litA "HQ", litA "4K", litA "1080p", litA "720p"],
   .atom (.star anyCh), .atom .eos]

/-- `\s*\([^)]*[α-ωΑ-Ω][^)]*\)` -/
def pat8 : List RItem :=
  [.atom (.star pySpace), .atom (.one (· = '(')),
   .atom (.star (· ≠ ')')), .atom (.one greekCls),
   .atom (.star (· ≠ ')')), .atom (.one (· = ')'))]

/-- `\[.*[α-ωΑ-Ω].*\]` -/
def pat9 : List RItem :=
  [.atom (.one (· = '[')), .atom (.star anyCh), .atom (.one greekCls),
   .atom (.star anyCh), .atom (.one (· = ']'))]

/-- `patterns_to_remove`, in source order. -/
def cleanPatterns : List (List RItem) :=
  [pat1, pat2, pat3, pat4, pat5, pat6, pat7, pat8, pat9]

/-- `\s+` (for the final whitespace collapse). -/
def wsPat : List RItem := [.atom (.one pySpace), .atom (.star pySpace)]

/-- `clean_title` (src/text_utils.py, lines 3–25): strip, delete each
pattern's matches in order, collapse whitespace runs to one space,
strip again.  Identical to
`SpotifyPlaylistCreator._clean_title` (src/spotify_client.py 29–51). -/
def cleanTitle (title : String) : String :=
  if title = "" then ""
  else
    let cleaned := pyStripL title.data
    let cleaned := cleanPatterns.foldl (fun s pat => reSub pat [] none s) cleaned
    pyStrip ⟨reSub wsPat [' '] none cleaned⟩

/-! ## `difflib.SequenceMatcher(None, a, b).ratio()`

Both scorers call the classic sequence-matcher ratio:
`2 * M / (len(a) + len(b))` where `M` is the total size of the matching
blocks found by the Ratcliff–Obershelp recursion over
`find_longest_match`.  `find_longest_match` is embedded operationally:
the `b2j`/`j2len` dynamic-programming sweep followed by the two
extension loops.  No junk is modelled (`isjunk=None`; the autojunk
popularity heuristic only changes behaviour for `len(b) ≥ 200`). -/

/-- Positions (ascending) of a character in a list, starting at a given
offset: difflib's `b2j`. -/
def posAux (c : Char) : List Char → Nat → List Nat
  | [], _ => []
  | x :: xs, k =>
    if x = c then k :: posAux c xs (k + 1) else posAux c xs (k + 1)

/-- All positions of `c` in `b`, ascending. -/
def positions (b : List Char) (c : Char) : List Nat := posAux c b 0

/-- The best-block accumulator of `find_longest_match`. -/
structure FlmState where
  besti : Nat
  bestj : Nat
  bestsize : Nat
deriving DecidableEq

/-- One inner-loop step of the `j2len` sweep: read the previous row's
map, record the chain length, keep the block if strictly longer. -/
def innerStep (mPrev : Nat → Nat) (i : Nat) :
    FlmState × (Nat → Nat) → Nat → FlmState × (Nat → Nat) :=
  fun sm j =>
    let k := (if j = 0 then 0 else mPrev (j - 1)) + 1
    let mNew := fun x => if x = j then k else sm.2 x
    let st := if sm.1.bestsize < k then ⟨i + 1 - k, j + 1 - k, k⟩ else sm.1
    (st, mNew)

/-- The `j` values visited in one row: positions of `a[i]` in `b`,
skipping `j < blo` (`continue`) and stopping at `j ≥ bhi` (`break`). -/
def rowJs (b : List Char) (c : Char) (blo bhi : Nat) : List Nat :=
  ((positions b c).filter fun j => blo ≤ j).takeWhile fun j => j < bhi

/-- The dynamic-programming sweep of `find_longest_match` over rows
`alo ≤ i < ahi`. -/
def flmDict (a b : List Char) (alo ahi blo bhi : Nat) : FlmState :=
  ((List.range' alo (ahi - alo)).foldl
    (fun sm i =>
      let c := a.getD i 'A'
      (rowJs b c blo bhi).foldl (innerStep sm.2 i) (sm.1, fun _ => 0))
    (⟨alo, blo, 0⟩, fun _ => 0)).1

/-- `a[besti-1] == b[bestj-1]`-style guarded character comparison. -/
def chEq (a b : List Char) (i j : Nat) : Bool :=
  match a.get? i, b.get? j with
  | some x, some y => x = y
  | _, _ => false

/-- The first extension loop: grow the block leftwards while characters
match (fuelled; `besti` decreases each step, so `besti` fuel
suffices). -/
def extLeft (a b : List Char) (alo blo : Nat) : Nat → FlmState → FlmState
  | 0, st => st
  | fuel + 1, st =>
    if alo < st.besti ∧ blo < st.bestj ∧
        chEq a b (st.besti - 1) (st.bestj - 1) then
      extLeft a b alo blo fuel
        ⟨st.besti - 1, st.bestj - 1, st.bestsize + 1⟩
    else st

/-- The second extension loop: grow the block rightwards. -/
def extRight (a b : List Char) (ahi bhi : Nat) : Nat → FlmState → FlmState
  | 0, st => st
  | fuel + 1, st =>
    if st.besti + st.bestsize < ahi ∧ st.bestj + st.bestsize < bhi ∧
        chEq a b (st.besti + st.bestsize) (st.bestj + st.bestsize) then
      extRight a b ahi bhi fuel
        ⟨st.besti, st.bestj, st.bestsize + 1⟩
    else st

/-- `find_longest_match(alo, ahi, blo, bhi)` (without junk). -/
def flm (a b : List Char) (alo ahi blo bhi : Nat) : FlmState :=
  let st := flmDict a b alo ahi blo bhi
  let st := extLeft a b alo blo st.besti st
  extRight a b ahi bhi (ahi + 1) st

/-- Total size of all matching blocks: the Ratcliff–Obershelp recursion
of `get_matching_blocks`, fuelled (the fuel used in `difflibRatio` is
sufficient because each recursive call strictly shrinks the windows). -/
def matchesSum (a b : List Char) : Nat → Nat → Nat → Nat → Nat → Nat
  | 0, _, _, _, _ => 0
  | fuel + 1, alo, ahi, blo, bhi =>
    let st := flm a b alo ahi blo bhi
    if st.bestsize = 0 then 0
    else
      matchesSum a b fuel alo st.besti blo st.bestj + st.bestsize +
      matchesSum a b fuel (st.besti + st.bestsize) ahi
        (st.bestj + st.bestsize) bhi

/-- Well-formedness of a `find_longest_match` result relative to its
window: the block lies inside `[alo, ahi) × [blo, bhi)`. -/
def stOk (alo ahi blo bhi : Nat) (st : FlmState) : Prop :=
  alo ≤ st.besti ∧ st.besti + st.bestsize ≤ ahi ∧
  blo ≤ st.bestj ∧ st.bestj + st.bestsize ≤ bhi

/-- `SequenceMatcher(None, a, b).ratio()`; `_calculate_ratio` returns
`1.0` when both sequences are empty. -/
def difflibRatio (sa sb : String) : ℚ :=
  let a := sa.data
  let b := sb.data
  if a.length + b.length = 0 then 1
  else
    (2 * (matchesSum a b (a.length + b.length + 1) 0 a.length 0 b.length) :
      ℚ) / (a.length + b.length)

/-! ## Data model -/

/-- One entry of a candidate's `artists` list (`{name: ...}`). -/
structure ArtistE where
  name : String
deriving DecidableEq

/-- A well-formed item of the remote search response
(`results['tracks']['items'][k]`), with the fields the code reads. -/
structure Track where
  id : String
  name : String
  artists : List ArtistE
  duration_ms : Nat
  uri : String
deriving DecidableEq

/-- A local `song_info` dict; `.get(key, default)` accesses are the
field defaults (`get_song_info` never sets `duration_ms`, so it
defaults to `0`). -/
structure SongInfo where
  title : String := ""
  artist : String := ""
  album : String := ""
  duration_ms : Nat := 0
  file_path : String := ""
deriving DecidableEq

/-! ## The match scorers

Two scorer variants exist in the sources; both are embedded:
* `SpotifyPlaylistCreator._calculate_match_score`
  (src/spotify_client.py, lines 92–120): substring-based artist parts,
  a both-empty artist bonus, no duration term;
* `TrackFinder._calculate_match_score` (src/track_finder.py,
  lines 33–56): similarity-based artist term, no both-empty bonus, a
  duration bonus.
Their title terms are textually identical; `titleTerm` embeds both. -/

/-- List-level prefix test. -/
def isPrefixL : List Char → List Char → Bool
  | [], _ => true
  | _ :: _, [] => false
  | x :: xs, y :: ys => x = y && isPrefixL xs ys

/-- Python's `needle in hay` substring test. -/
def isSubstrL (needle : List Char) : List Char → Bool
  | [] => needle = []
  | c :: rest => isPrefixL needle (c :: rest) || isSubstrL needle rest

/-- The remainder after one separator of
`re.split(r',|ft\.|feat\.|&|και|με', s)` matching at this position
(alternatives tried left to right). -/
def sepRest : List Char → Option (List Char)
  | [] => none
  | c :: rest =>
    if c = ',' then some rest
    else if (c :: rest).take 3 = ['f', 't', '.'] then some (rest.drop 2)
    else if (c :: rest).take 5 = ['f', 'e', 'a', 't', '.'] then
      some (rest.drop 4)
    else if c = '&' then some rest
    else if (c :: rest).take 3 = ['κ', 'α', 'ι'] then some (rest.drop 2)
    else if (c :: rest).take 2 = ['μ', 'ε'] then some (rest.drop 1)
    else none

/-- `re.split` scanning, fuelled for structural recursion (each step
strictly shortens the input, so the fuel `splitArtist` supplies is
sufficient): split at each leftmost separator match. -/
def splitArtistAux : Nat → List Char → List Char → List (List Char)
  | 0, _, acc => [acc.reverse]
  | _ + 1, [], acc => [acc.reverse]
  | fuel + 1, c :: rest, acc =>
    match sepRest (c :: rest) with
    | some r => acc.reverse :: splitArtistAux fuel r []
    | none => splitArtistAux fuel rest (c :: acc)

/-- `re.split(r',|ft\.|feat\.|&|και|με', s)`. -/
def splitArtist (s : String) : List String :=
  (splitArtistAux (s.data.length + 1) s.data []).map fun l => ⟨l⟩

/-- Python's `max` over a list of rationals (`max([...])`; the sources
only call it on non-empty lists). -/
def listMax : List ℚ → ℚ
  | [] => 0
  | x :: xs => xs.foldl max x

/-- The title term shared by both scorers:
`SequenceMatcher(None, clean_title(title).lower(), name.lower()).ratio() * 0.6`. -/
def titleTerm (song : SongInfo) (t : Track) : ℚ :=
  difflibRatio (pyLowerStr (cleanTitle song.title)) (pyLowerStr t.name) *
    (3 / 5)

/-- The artist term of `SpotifyPlaylistCreator._calculate_match_score`
(src/spotify_client.py, lines 100–119): fraction of local artist parts
that occur as substrings of the joined candidate artist names, weighted
0.4; the both-absent case awards the full 0.4. -/
def spArtistTerm (song : SongInfo) (t : Track) : ℚ :=
  let localArtist := pyLowerStr song.artist
  let spNames := t.artists.map fun a => pyLowerStr a.name
  if localArtist ≠ "" ∧ spNames ≠ [] then
    let parts := ((splitArtist localArtist).map pyStrip).filter (· ≠ "")
    if parts ≠ [] then
      let combined := String.intercalate " " spNames
      let matched := (parts.filter fun p => isSubstrL p.data combined.data).length
      (matched : ℚ) / (parts.length : ℚ) * (2 / 5)
    else 0
  else if localArtist = "" ∧ spNames = [] then 2 / 5
  else 0

/-- `SpotifyPlaylistCreator._calculate_match_score`
(src/spotify_client.py, lines 92–120). -/
def spCalcScore (song : SongInfo) (t : Track) : ℚ :=
  titleTerm song t + spArtistTerm song t

/-- The artist term of `TrackFinder._calculate_match_score`
(src/track_finder.py, lines 42–47): best sequence-matcher similarity of
the whole local artist string against any candidate artist name,
weighted 0.4; no award when either side is absent. -/
def tfArtistTerm (song : SongInfo) (t : Track) : ℚ :=
  let localArtist := pyLowerStr song.artist
  let spNames := t.artists.map fun a => pyLowerStr a.name
  if localArtist ≠ "" ∧ spNames ≠ [] then
    listMax (spNames.map fun nm => difflibRatio localArtist nm) * (2 / 5)
  else 0

/-- The duration bonus of `TrackFinder._calculate_match_score`
(src/track_finder.py, lines 49–54): both durations known (non-zero) and
within 5000 ms. -/
def tfDurTerm (song : SongInfo) (t : Track) : ℚ :=
  if song.duration_ms ≠ 0 ∧ t.duration_ms ≠ 0 ∧
      max song.duration_ms t.duration_ms -
        min song.duration_ms t.duration_ms < 5000 then
    1 / 10
  else 0

/-- `TrackFinder._calculate_match_score`
(src/track_finder.py, lines 33–56). -/
def tfCalcScore (song : SongInfo) (t : Track) : ℚ :=
  titleTerm song t + tfArtistTerm song t + tfDurTerm song t

/-! ## The query planner
(`SpotifyPlaylistCreator._build_search_query` and
`_get_stage{1,2,3}_queries`, src/spotify_client.py, lines 73–90 and
143–182). -/

/-- `_build_search_query(title, artist)`: field-qualified clauses when
both are non-empty, a bare quoted phrase for a single field, `None` for
neither. -/
def buildSearchQuery (t a : String) : Option String :=
  let parts : List String :=
    (if t ≠ "" then ["track:\"" ++ t ++ "\""] else []) ++
    (if a ≠ "" then ["artist:\"" ++ a ++ "\""] else [])
  if parts = [] then none
  else if parts.length = 1 then
    if t ≠ "" then some ("\"" ++ t ++ "\"")
    else some ("\"" ++ a ++ "\"")
  else some (String.intercalate " " parts)

/-- `_get_stage1_queries` (lines 143–145). -/
def stage1Queries (ct artist : String) : List (Option String) :=
  [buildSearchQuery ct artist]

/-- `_get_stage2_queries` (lines 147–152). -/
def stage2Queries (ct artist : String) : List (Option String) :=
  [buildSearchQuery ct ""] ++
  (if artist ≠ "" then [buildSearchQuery "" artist] else [])

/-- A raw quoted phrase `f'"{x}"'`. -/
def rawQ1 (x : String) : String := "\"" ++ x ++ "\""

/-- A raw pair of quoted phrases `f'"{x}" "{y}"'`. -/
def rawQ2 (x y : String) : String := "\"" ++ x ++ "\" \"" ++ y ++ "\""

/-- The stage-3 query list before deduplication
(`_get_stage3_queries`, lines 154–178, the `queries` accumulator). -/
def stage3QueriesRaw (ct artist gct ga : String) : List (Option String) :=
  (if gct ≠ ct then
    [buildSearchQuery gct artist, buildSearchQuery gct ""] ++
    (if artist ≠ "" ∧ ga ≠ artist then [buildSearchQuery gct ga] else [])
  else []) ++
  (if artist ≠ "" ∧ ga ≠ artist then [buildSearchQuery ct ga] else []) ++
  (if artist ≠ "" then [some (rawQ2 ct artist)] else []) ++
  [some (rawQ1 ct)] ++
  (if artist ≠ "" then [some (rawQ1 artist)] else []) ++
  (if gct ≠ ct then
    (if artist ≠ "" ∧ ga ≠ artist then [some (rawQ2 gct ga)]
     else if artist ≠ "" then [some (rawQ2 gct artist)] else []) ++
    [some (rawQ1 gct)]
  else [])

/-- Python's `filter(None, qs)` over the mixed `None`/string lists:
drops `None` and empty strings. -/
def filterFalsy (qs : List (Option String)) : List String :=
  qs.filterMap fun o =>
    match o with
    | none => none
    | some s => if s = "" then none else some s

/-- `set(filter(None, stage1_queries + stage2_queries))`
(line 180), as a list with membership as the set test. -/
def processedQueries (ct artist : String) : List String :=
  filterFalsy (stage1Queries ct artist ++ stage2Queries ct artist)

/-- `_get_stage3_queries`'s return value (lines 180–182): the raw
stage-3 queries, truthy ones only, minus those already issued in
stages 1–2, in generation order. -/
def uniqueStage3 (ct artist gct ga : String) : List String :=
  (filterFalsy (stage3QueriesRaw ct artist gct ga)).filter
    fun q => ¬ q ∈ processedQueries ct artist

/-! ## The search orchestrator
(`SpotifyPlaylistCreator._process_search_queries_for_stage` and
`search_spotify_track`, src/spotify_client.py, lines 122–141 and
184–245). -/

/-- Outcome of one remote call `self.sp.search(q=..., type='track',
limit=5)`: a raised exception, or a list of response items. -/
inductive SearchOutcome where
  | err
  | ok (items : List Track)
deriving DecidableEq

/-- The injected remote search capability. -/
abbrev SearchOracle : Type := String → SearchOutcome

/-- The best-match dict the orchestrator builds (lines 133–138). -/
structure BestDict where
  id : String
  name : String
  artist : String
  uri : String
deriving DecidableEq

/-- Orchestrator state: best-so-far candidate, highest score achieved,
the API request counter, and (for observability in theorems) the
ordered list of queries passed to the remote client. -/
structure SearchState where
  best : Option BestDict
  high : ℚ
  count : Nat
  issued : List String
deriving DecidableEq

/-- State before any query. -/
def initState : SearchState := ⟨none, 0, 0, []⟩

/-- The inner loop over one query's response items (lines 129–138).
`highest_score_achieved` is assigned before the best-match dict is
built from `spotify_track_candidate['artists'][0]`; when the artists
list is empty that access raises `IndexError`, which the surrounding
`except` catches — the score update survives, the candidate is not
recorded, and the rest of this query's items are skipped. -/
def processItems (song : SongInfo) :
    List Track → Option BestDict → ℚ → Option BestDict × ℚ
  | [], best, high => (best, high)
  | t :: rest, best, high =>
    let s := spCalcScore song t
    if high < s then
      match t.artists with
      | [] => (best, s)
      | a0 :: _ => processItems song rest (some ⟨t.id, t.name, a0.name, t.uri⟩) s
    else processItems song rest best high

/-- One iteration of the stage loop (lines 124–140): log the attempted
query; an exception leaves the accumulator untouched; a response bumps
the request counter and is scored item by item. -/
def processQuery (O : SearchOracle) (song : SongInfo)
    (st : SearchState) (q : String) : SearchState :=
  let st := { st with issued := st.issued ++ [q] }
  match O q with
  | .err => st
  | .ok items =>
    let st := { st with count := st.count + 1 }
    let bh := processItems song items st.best st.high
    { st with best := bh.1, high := bh.2 }

/-- `_process_search_queries_for_stage` (lines 122–141):
`for query in filter(None, queries_to_try)`. -/
def processStage (O : SearchOracle) (song : SongInfo)
    (qs : List (Option String)) (st : SearchState) : SearchState :=
  (filterFalsy qs).foldl (processQuery O song) st

/-- `search_spotify_track` (src/spotify_client.py, lines 184–245),
returning the Python return value paired with the final orchestrator
state.  Thresholds: `STAGE1_MIN_SCORE = 0.85`, `STAGE2_MIN_SCORE =
0.75`, `MIN_ACCEPTABLE_SCORE = 0.65`; each early-exit guard is
`best_match_candidate and highest_score_achieved >= threshold`. -/
def searchSpotifyTrack (O : SearchOracle) (song : SongInfo) :
    Option BestDict × SearchState :=
  let title := pyStrip song.title
  let artist := pyStrip song.artist
  if title = "" then (none, initState)
  else
    let ct := cleanTitle title
    let gct := greekToGreeklish ct
    let ga := greekToGreeklish artist
    let st1 := processStage O song (stage1Queries ct artist) initState
    if st1.best.isSome ∧ 17 / 20 ≤ st1.high then (st1.best, st1)
    else
      let st2 := processStage O song (stage2Queries ct artist) st1
      if st2.best.isSome ∧ 3 / 4 ≤ st2.high then (st2.best, st2)
      else
        let q3 := uniqueStage3 ct artist gct ga
        let st3 := if q3 ≠ [] then processStage O song (q3.map some) st2
          else st2
        if st3.best.isSome ∧ 13 / 20 ≤ st3.high then (st3.best, st3)
        else (none, st3)

/-- The orchestrator state at the end of stage 1 (derived view of the
`search_spotify_track` control flow). -/
def stage1State (O : SearchOracle) (song : SongInfo) : SearchState :=
  processStage O song
    (stage1Queries (cleanTitle (pyStrip song.title)) (pyStrip song.artist))
    initState

/-- The orchestrator state at the end of stage 2. -/
def stage2State (O : SearchOracle) (song : SongInfo) : SearchState :=
  processStage O song
    (stage2Queries (cleanTitle (pyStrip song.title)) (pyStrip song.artist))
    (stage1State O song)

/-- The deduplicated stage-3 queries of one resolution. -/
def stage3Of (song : SongInfo) : List String :=
  uniqueStage3 (cleanTitle (pyStrip song.title)) (pyStrip song.artist)
    (greekToGreeklish (cleanTitle (pyStrip song.title)))
    (greekToGreeklish (pyStrip song.artist))

/-- The orchestrator state at the end of stage 3. -/
def stage3State (O : SearchOracle) (song : SongInfo) : SearchState :=
  if stage3Of song ≠ [] then
    processStage O song ((stage3Of song).map some) (stage2State O song)
  else stage2State O song

/-! ## `get_song_info` (src/metadata_utils.py, lines 18–86)

The filesystem and the `mutagen` library are external; `MutagenFile`'s
behaviour at one path is an explicit `LoadOutcome` argument:
`raised` (the call threw), `noFile` (it returned `None`), `noTags`
(`audio.tags` missing or `None`), or `tags` (a usable tag dictionary).
Tag dictionaries are association lists of raw tag values. -/

/-- A raw tag value: either a plain value or a list of values
(`metadata_utils._normalize_tag_value` distinguishes exactly these). -/
inductive TagValue where
  | strv (s : String)
  | listv (l : List String)
deriving DecidableEq

/-- What loading one audio file with `MutagenFile` did. -/
inductive LoadOutcome where
  | raised
  | noFile
  | noTags
  | tags (ts : List (String × TagValue))

/-- `tag in audio_tags` / `audio_tags[tag]` on the tag dictionary. -/
def tagLookup : List (String × TagValue) → String → Option TagValue
  | [], _ => none
  | p :: rest, n => if p.1 = n then some p.2 else tagLookup rest n

/-- `_normalize_tag_value` (lines 18–25): a non-empty list yields its
head, an empty list is unusable, anything else is stringified. -/
def normalizeTagValue : TagValue → Option String
  | .listv [] => none
  | .listv (x :: _) => some x
  | .strv s => some s

/-- `_get_tag_value` (lines 27–44): first tag name whose normalized,
stripped value is non-empty. -/
def getTagValue (ts : List (String × TagValue)) : List String → Option String
  | [] => none
  | n :: rest =>
    match tagLookup ts n with
    | none => getTagValue ts rest
    | some raw =>
      match normalizeTagValue raw with
      | none => getTagValue ts rest
      | some nv =>
        let cleaned := pyStrip nv
        if cleaned ≠ "" then some cleaned else getTagValue ts rest

/-- `_extract_fields_from_tags` (lines 46–59): the three optional
fields, in the tag-preference order of `tag_definitions`. -/
def extractFields (ts : List (String × TagValue)) :
    Option String × Option String × Option String :=
  (getTagValue ts ["title", "TIT2", "\xA9nam"],
   getTagValue ts ["artist", "TPE1", "\xA9ART"],
   getTagValue ts ["album", "TALB", "\xA9alb"])

/-- The record `get_song_info` returns. -/
structure SongRecord where
  title : String
  artist : String
  album : String
  filePath : String
deriving DecidableEq

/-- `metadata.update(extracted_tag_data)`: fields present in the
extraction replace the defaults. -/
def updateRecord (base : SongRecord)
    (f : Option String × Option String × Option String) : SongRecord :=
  { base with
    title := f.1.getD base.title
    artist := f.2.1.getD base.artist
    album := f.2.2.getD base.album }

/-- `get_song_info` (lines 61–86): defaults (`title` = filename stem,
`artist`/`album` empty), updated from the tags when loading succeeded;
every failure path keeps the defaults. -/
def getSongInfo (stem pathStr : String) (outcome : LoadOutcome) : SongRecord :=
  let base : SongRecord := ⟨stem, "", "", pathStr⟩
  match outcome with
  | .raised => base
  | .noFile => base
  | .noTags => base
  | .tags ts => updateRecord base (extractFields ts)

/-! ## Lemmas: transliteration -/

theorem lookupG_mem {t : List (Char × List Char)} {c : Char} {v : List Char}
    (h : lookupG t c = some v) : (c, v) ∈ t := by
  induction t with
  | nil => simp [lookupG] at h
  | cons p rest ih =>
    obtain ⟨k, w⟩ := p
    by_cases hp : k = c
    · subst hp
      simp [lookupG] at h
      subst h
      exact List.mem_cons_self _ _
    · simp [lookupG, hp] at h
      exact List.mem_cons_of_mem _ (ih h)

/-- All table keys are non-ASCII (Greek block). -/
theorem greekTable_keys_nonAscii :
    greekTable.all (fun p => decide (128 ≤ p.1.toNat)) = true := by decide

/-- ASCII characters are not in the table. -/
theorem lookupG_ascii {c : Char} (h : c.toNat < 128) :
    lookupG greekTable c = none := by
  cases hl : lookupG greekTable c with
  | none => rfl
  | some v =>
    exfalso
    have hm := lookupG_mem hl
    have := List.all_eq_true.mp greekTable_keys_nonAscii _ hm
    simp at this
    omega

/-- Every replacement list in the table is itself a fixed point of
per-character transliteration (all values are ASCII Latin). -/
theorem greekTable_values_fixed :
    greekTable.all
      (fun p => decide ((p.2.map trCharL).flatten = p.2)) = true := by decide

/-- Transliterating the transliteration of one character changes
nothing. -/
theorem trCharL_fixed (c : Char) :
    ((trCharL c).map trCharL).flatten = trCharL c := by
  unfold trCharL
  cases hl : lookupG greekTable c with
  | none => simp [trCharL, hl]
  | some v =>
    have hm := lookupG_mem hl
    have := List.all_eq_true.mp greekTable_values_fixed _ hm
    simpa using this

/-- Character-level idempotence, lifted to character lists. -/
theorem trCharL_flatten_fixed (l : List Char) :
    (((l.map trCharL).flatten).map trCharL).flatten = (l.map trCharL).flatten := by
  induction l with
  | nil => rfl
  | cons c rest ih =>
    simp only [List.map_cons, List.flatten_cons, List.map_append,
      List.flatten_append]
    rw [trCharL_fixed, ih]

/-- Characters outside the table are untouched, lifted to lists. -/
theorem trCharL_flatten_ascii {l : List Char} (h : ∀ c ∈ l, c.toNat < 128) :
    (l.map trCharL).flatten = l := by
  induction l with
  | nil => rfl
  | cons c rest ih =>
    simp only [List.map_cons, List.flatten_cons]
    rw [trCharL, lookupG_ascii (h c (List.mem_cons_self c rest)),
      ih fun x hx => h x (List.mem_cons_of_mem _ hx)]
    rfl

/-! ## Lemmas: query lists and the stage loop -/

theorem filterFalsy_append (l1 l2 : List (Option String)) :
    filterFalsy (l1 ++ l2) = filterFalsy l1 ++ filterFalsy l2 := by
  simp [filterFalsy]

theorem filterFalsy_cons_some {q : String} {qs : List (Option String)}
    (hq : q ≠ "") : filterFalsy (some q :: qs) = q :: filterFalsy qs := by
  simp [filterFalsy, hq]

theorem mem_filterFalsy_ne {q : String} {l : List (Option String)}
    (h : q ∈ filterFalsy l) : q ≠ "" := by
  simp only [filterFalsy, List.mem_filterMap] at h
  obtain ⟨o, _, ho⟩ := h
  cases o with
  | none => simp at ho
  | some s =>
    by_cases hs : s = "" <;> simp [hs] at ho
    exact ho ▸ hs

theorem filterFalsy_map_some {l : List String} (h : ∀ x ∈ l, x ≠ "") :
    filterFalsy (l.map some) = l := by
  induction l with
  | nil => rfl
  | cons x rest ih =>
    have hx := h x (List.mem_cons_self x rest)
    simp only [List.map_cons]
    rw [filterFalsy_cons_some hx, ih fun y hy => h y (List.mem_cons_of_mem _ hy)]

theorem mem_uniqueStage3_ne {q : String} {ct artist gct ga : String}
    (h : q ∈ uniqueStage3 ct artist gct ga) : q ≠ "" :=
  mem_filterFalsy_ne (List.mem_of_mem_filter h)

/-- In the stage loop every attempted (truthy) query is logged, whatever
its outcome. -/
theorem processQuery_issued (O : SearchOracle) (song : SongInfo)
    (st : SearchState) (q : String) :
    (processQuery O song st q).issued = st.issued ++ [q] := by
  unfold processQuery
  cases O q <;> rfl

theorem processQuery_err {O : SearchOracle} {q : String} (song : SongInfo)
    (st : SearchState) (he : O q = .err) :
    processQuery O song st q = { st with issued := st.issued ++ [q] } := by
  unfold processQuery
  rw [he]

theorem foldl_processQuery_issued (O : SearchOracle) (song : SongInfo) :
    ∀ (l : List String) (st : SearchState),
      (l.foldl (processQuery O song) st).issued = st.issued ++ l := by
  intro l
  induction l with
  | nil => simp
  | cons q rest ih =>
    intro st
    simp only [List.foldl_cons]
    rw [ih, processQuery_issued]
    simp

/-- A stage appends exactly its truthy queries to the issued log. -/
theorem processStage_issued (O : SearchOracle) (song : SongInfo)
    (qs : List (Option String)) (st : SearchState) :
    (processStage O song qs st).issued = st.issued ++ filterFalsy qs :=
  foldl_processQuery_issued O song (filterFalsy qs) st

/-- `greek_to_greeklish` on a non-empty string, in `String.mk` form. -/
theorem greekToGreeklish_ne_data {s : String} (h : s ≠ "") :
    greekToGreeklish s = ⟨(s.data.map trCharL).flatten⟩ := by
  unfold greekToGreeklish
  rw [if_neg h]

/-- `str.lower` is empty exactly on the empty string. -/
theorem pyLowerStr_eq_empty {s : String} : pyLowerStr s = "" ↔ s = "" := by
  obtain ⟨l⟩ := s
  constructor
  · intro h
    have hd := congrArg String.data h
    simp only [pyLowerStr] at hd
    have hl : l = [] := List.map_eq_nil_iff.mp hd
    rw [hl]
  · intro h
    rw [h]
    rfl

/-! ## Claim theorems -/

/-- C2: a `SongInfo` with an empty title resolves to `None`
immediately — `search_spotify_track` returns before building any query,
issuing zero remote calls, whatever the artist field and the remote
behaviour. -/
theorem c2_empty_title_short_circuit (O : SearchOracle) (song : SongInfo)
    (h : song.title = "") :
    searchSpotifyTrack O song = (none, initState) ∧
    (searchSpotifyTrack O song).2.issued = [] ∧
    (searchSpotifyTrack O song).2.count = 0 := by
  have hs : pyStrip song.title = "" := by rw [h]; rfl
  have h1 : searchSpotifyTrack O song = (none, initState) := by
    simp [searchSpotifyTrack, hs]
  exact ⟨h1, by rw [h1]; rfl, by rw [h1]; rfl⟩

/-- C2 witness: the spec's end-to-end scenario
`SongInfo{title="", artist="Anyone"}`. -/
theorem c2_empty_title_short_circuit_witness :
    searchSpotifyTrack (fun _ => .ok []) { title := "", artist := "Anyone" } =
      (none, initState) :=
  (c2_empty_title_short_circuit _ _ rfl).1

/-- C3: a remote call that raises is absorbed inside the stage loop:
the stage continues with the remaining queries, the accumulator (best,
score, request counter) is exactly as if that query had returned zero
candidates, only the issued log records the attempt — and the remaining
queries of the stage are still issued. -/
theorem c3_remote_error_recovered (O : SearchOracle) (song : SongInfo)
    (q : String) (qs : List (Option String)) (st : SearchState)
    (hq : q ≠ "") (he : O q = .err) :
    processStage O song (some q :: qs) st =
      processStage O song qs { st with issued := st.issued ++ [q] } ∧
    (processStage O song (some q :: qs) st).issued =
      (st.issued ++ [q]) ++ filterFalsy qs := by
  have h1 : processStage O song (some q :: qs) st =
      processStage O song qs { st with issued := st.issued ++ [q] } := by
    unfold processStage
    rw [filterFalsy_cons_some hq]
    simp only [List.foldl_cons]
    rw [processQuery_err song st he]
  refine ⟨h1, ?_⟩
  rw [h1, processStage_issued]

/-- C3 witness: a failing first query, a surviving second one. -/
theorem c3_remote_error_recovered_witness :
    processStage (fun q => if q = "\"x\"" then .err else .ok [])
      { title := "x" } (some "\"x\"" :: [some "\"y\""]) initState =
      processStage (fun q => if q = "\"x\"" then .err else .ok [])
        { title := "x" } [some "\"y\""]
        { initState with issued := initState.issued ++ ["\"x\""] } ∧
    (processStage (fun q => if q = "\"x\"" then .err else .ok [])
      { title := "x" } (some "\"x\"" :: [some "\"y\""]) initState).issued =
      (initState.issued ++ ["\"x\""]) ++ filterFalsy [some "\"y\""] :=
  c3_remote_error_recovered _ _ _ _ _ (by decide) rfl

/-- C4 (amended): every stage-3 query really is filtered against the
union of the truthy stage-1 and stage-2 queries, and stage 3 preserves
generation order (it is a sublist of the raw stage-3 list); internal
stage-3 duplicates, however, are not removed (see the
counterexample). -/
theorem c4_query_dedup_amended (ct artist gct ga : String) :
    (∀ q ∈ uniqueStage3 ct artist gct ga, ¬ q ∈ processedQueries ct artist) ∧
    (uniqueStage3 ct artist gct ga).Sublist
      (filterFalsy (stage3QueriesRaw ct artist gct ga)) := by
  constructor
  · intro q hq
    have := List.of_mem_filter hq
    simpa using this
  · exact List.filter_sublist _

/-- C4 witness: for the resolution of `{title="α", artist=""}` the
stage-3 query `"a"` is disjoint from stages 1–2. -/
theorem c4_query_dedup_amended_witness :
    ¬ "\"a\"" ∈ processedQueries "α" "" :=
  (c4_query_dedup_amended "α" "" "a" "").1 "\"a\"" (by decide)

/-- C4 counterexample: resolving `{title="α", artist=""}` (remote
returns no items, so all three stages run) issues
`"α"` twice (stage 1 and stage 2 coincide when the artist is empty) and
the transliterated `"a"` three times inside stage 3 — the full issued
sequence is not duplicate-free. -/
theorem c4_query_dedup_cex :
    ¬ ((searchSpotifyTrack (fun _ => .ok []) { title := "α" }).2.issued.Nodup) ∧
    (searchSpotifyTrack (fun _ => .ok []) { title := "α" }).2.issued =
      ["\"α\"", "\"α\"", "\"a\"", "\"a\"", "\"a\""] := by
  decide

/-- C5 (amended): `clean_title` of an empty input is the empty string,
but `clean_title` is not idempotent: removing a bracketed run can
splice a promotional marker that only an earlier pattern of the same
pass removes. -/
theorem c5_clean_title_amended :
    cleanTitle "" = "" ∧
    cleanTitle (cleanTitle "a (ly[z]ric w)") ≠ cleanTitle "a (ly[z]ric w)" :=
  ⟨rfl, by decide⟩

/-- C5 counterexample: `clean_title("a (ly[z]ric w)") = "a (lyric w)"`
(pattern 2 removes `[z]`, splicing `lyric`), while a second application
removes `(lyric w)` via pattern 1, yielding `"a"`. -/
theorem c5_clean_title_cex :
    cleanTitle (cleanTitle "a (ly[z]ric w)") ≠ cleanTitle "a (ly[z]ric w)" ∧
    cleanTitle "a (ly[z]ric w)" = "a (lyric w)" ∧
    cleanTitle (cleanTitle "a (ly[z]ric w)") = "a" := by
  decide

/-- C6: `greek_to_greeklish` is the identity on pure-ASCII strings,
maps the empty string to itself, is idempotent on all inputs, and
passes characters outside the transliteration table through
unchanged. -/
theorem c6_greeklish_properties :
    (∀ s : String, (∀ c ∈ s.data, c.toNat < 128) → greekToGreeklish s = s) ∧
    greekToGreeklish "" = "" ∧
    (∀ s : String, greekToGreeklish (greekToGreeklish s) = greekToGreeklish s) ∧
    (∀ c : Char, lookupG greekTable c = none →
      greekToGreeklish ⟨[c]⟩ = ⟨[c]⟩) := by
  refine ⟨?_, rfl, ?_, ?_⟩
  · intro s hs
    by_cases h0 : s = ""
    · rw [h0]
      rfl
    · obtain ⟨l⟩ := s
      rw [greekToGreeklish_ne_data h0]
      exact congrArg String.mk (trCharL_flatten_ascii hs)
  · intro s
    by_cases h0 : s = ""
    · rw [h0]
      rfl
    · by_cases h1 : greekToGreeklish s = ""
      · rw [h1]
        rfl
      · rw [greekToGreeklish_ne_data h1, greekToGreeklish_ne_data h0]
        exact congrArg String.mk (trCharL_flatten_fixed s.data)
  · intro c hc
    have hne : (⟨[c]⟩ : String) ≠ "" := by
      intro hcontra
      have h2 : ([c] : List Char) = [] := congrArg String.data hcontra
      simp at h2
    rw [greekToGreeklish_ne_data hne]
    have ht : trCharL c = [c] := by
      unfold trCharL
      rw [hc]
    exact congrArg String.mk (by simp [ht])

/-- C6 witness: ASCII fixed point and idempotence at a Greek input. -/
theorem c6_greeklish_properties_witness :
    greekToGreeklish "Song" = "Song" ∧
    greekToGreeklish (greekToGreeklish "Μια Αγάπη") =
      greekToGreeklish "Μια Αγάπη" :=
  ⟨c6_greeklish_properties.1 "Song" (by decide),
   c6_greeklish_properties.2.2.1 "Μια Αγάπη"⟩

/-- C7: in `SpotifyPlaylistCreator._calculate_match_score`, the artist
term is exactly 0.4 when both the local artist string and the candidate
artist list are absent, and exactly 0 when precisely one side has
artist information. -/
theorem c7_artist_term_absence (song : SongInfo) (t : Track) :
    (song.artist = "" ∧ t.artists = [] →
      spArtistTerm song t = 2 / 5 ∧
      spCalcScore song t = titleTerm song t + 2 / 5) ∧
    ((song.artist = "" ∧ t.artists ≠ []) ∨
        (song.artist ≠ "" ∧ t.artists = []) →
      spArtistTerm song t = 0 ∧ spCalcScore song t = titleTerm song t) := by
  constructor
  · rintro ⟨h1, h2⟩
    have hl : pyLowerStr song.artist = "" := pyLowerStr_eq_empty.mpr h1
    have hterm : spArtistTerm song t = 2 / 5 := by
      simp [spArtistTerm, hl, h2]
    exact ⟨hterm, by unfold spCalcScore; rw [hterm]⟩
  · intro hcase
    have hterm : spArtistTerm song t = 0 := by
      rcases hcase with ⟨h1, h2⟩ | ⟨h1, h2⟩
      · have hl : pyLowerStr song.artist = "" := pyLowerStr_eq_empty.mpr h1
        simp [spArtistTerm, hl, h2]
      · have hl : pyLowerStr song.artist ≠ "" :=
          fun hcon => h1 (pyLowerStr_eq_empty.mp hcon)
        simp [spArtistTerm, hl, h2]
    exact ⟨hterm, by unfold spCalcScore; rw [hterm, add_zero]⟩

/-- C7 witness: both-absent awards 0.4; local-only-artist awards 0. -/
theorem c7_artist_term_absence_witness :
    spCalcScore { title := "x" } ⟨"5", "x", [], 0, "u5"⟩ =
      titleTerm { title := "x" } ⟨"5", "x", [], 0, "u5"⟩ + 2 / 5 ∧
    spCalcScore { title := "x", artist := "y" } ⟨"5", "x", [], 0, "u5"⟩ =
      titleTerm { title := "x", artist := "y" } ⟨"5", "x", [], 0, "u5"⟩ :=
  ⟨((c7_artist_term_absence _ _).1 ⟨rfl, rfl⟩).2,
   ((c7_artist_term_absence _ _).2 (Or.inr ⟨by decide, rfl⟩)).2⟩

/-- C9: in `TrackFinder._calculate_match_score`, whenever both
durations are known (non-zero) and differ by less than 5000 ms, a flat
0.1 is added on top of the title and artist terms, with no clamping —
at a fully matching pair the total reaches 1.1 > 1. -/
theorem c9_duration_bonus :
    (∀ (song : SongInfo) (t : Track),
      song.duration_ms ≠ 0 → t.duration_ms ≠ 0 →
      max song.duration_ms t.duration_ms -
          min song.duration_ms t.duration_ms < 5000 →
      tfCalcScore song t = titleTerm song t + tfArtistTerm song t + 1 / 10) ∧
    1 < tfCalcScore { title := "ab", artist := "cd", duration_ms := 200000 }
      ⟨"4", "ab", [⟨"cd"⟩], 201000, "u4"⟩ := by
  constructor
  · intro song t h1 h2 h3
    unfold tfCalcScore tfDurTerm
    rw [if_pos ⟨h1, h2, h3⟩]
  · decide

/-- C9 witness: the bonus branch at a concrete close-duration pair. -/
theorem c9_duration_bonus_witness :
    tfCalcScore { title := "ab", artist := "cd", duration_ms := 200000 }
        ⟨"4", "ab", [⟨"cd"⟩], 201000, "u4"⟩ =
      titleTerm { title := "ab", artist := "cd", duration_ms := 200000 }
          ⟨"4", "ab", [⟨"cd"⟩], 201000, "u4"⟩ +
        tfArtistTerm { title := "ab", artist := "cd", duration_ms := 200000 }
          ⟨"4", "ab", [⟨"cd"⟩], 201000, "u4"⟩ + 1 / 10 :=
  c9_duration_bonus.1 _ _ (by decide) (by decide) (by decide)

/-- C10: `get_song_info` always yields a full record: `file_path` is
the given path; on any load failure (exception, unloadable file,
missing tags) the defaults stand — title = filename stem,
artist = album = ""; with usable tags each field is the first non-empty
tag value, falling back to the same defaults. -/
theorem c10_get_song_info_defaults (stem pathStr : String)
    (o : LoadOutcome) :
    (getSongInfo stem pathStr o).filePath = pathStr ∧
    (o = .raised ∨ o = .noFile ∨ o = .noTags →
      getSongInfo stem pathStr o = ⟨stem, "", "", pathStr⟩) ∧
    ∀ ts, o = .tags ts →
      (getSongInfo stem pathStr o).title =
        (getTagValue ts ["title", "TIT2", "\xA9nam"]).getD stem ∧
      (getSongInfo stem pathStr o).artist =
        (getTagValue ts ["artist", "TPE1", "\xA9ART"]).getD "" ∧
      (getSongInfo stem pathStr o).album =
        (getTagValue ts ["album", "TALB", "\xA9alb"]).getD "" := by
  cases o with
  | raised => exact ⟨rfl, fun _ => rfl, fun ts h => nomatch h⟩
  | noFile => exact ⟨rfl, fun _ => rfl, fun ts h => nomatch h⟩
  | noTags => exact ⟨rfl, fun _ => rfl, fun ts h => nomatch h⟩
  | tags ts =>
    refine ⟨rfl, ?_, ?_⟩
    · rintro (h | h | h) <;> exact nomatch h
    · intro ts' h
      cases h
      exact ⟨rfl, rfl, rfl⟩

/-- C10 witness: the unit-test scenario of a raising `MutagenFile`. -/
theorem c10_get_song_info_defaults_witness :
    getSongInfo "corrupted_file" "dummy/path/corrupted_file.mp3" .raised =
      ⟨"corrupted_file", "", "", "dummy/path/corrupted_file.mp3"⟩ :=
  (c10_get_song_info_defaults _ _ _).2.1 (Or.inl rfl)

/-! ## C1: the staged early-exit control flow -/

/-- `search_spotify_track` on a non-empty (stripped) title is exactly
the three-stage cascade over the derived stage states. -/
theorem searchSpotifyTrack_eq (O : SearchOracle) (song : SongInfo)
    (h : pyStrip song.title ≠ "") :
    searchSpotifyTrack O song =
      if (stage1State O song).best.isSome ∧
          17 / 20 ≤ (stage1State O song).high then
        ((stage1State O song).best, stage1State O song)
      else if (stage2State O song).best.isSome ∧
          3 / 4 ≤ (stage2State O song).high then
        ((stage2State O song).best, stage2State O song)
      else if (stage3State O song).best.isSome ∧
          13 / 20 ≤ (stage3State O song).high then
        ((stage3State O song).best, stage3State O song)
      else (none, stage3State O song) := by
  have hx : (pyStrip song.title = "") = False := eq_false h
  simp only [searchSpotifyTrack, stage1State, stage2State, stage3State,
    stage3Of, hx, if_false]

theorem stage1State_issued (O : SearchOracle) (song : SongInfo) :
    (stage1State O song).issued =
      filterFalsy
        (stage1Queries (cleanTitle (pyStrip song.title))
          (pyStrip song.artist)) := by
  unfold stage1State
  rw [processStage_issued]
  rfl

theorem stage2State_issued (O : SearchOracle) (song : SongInfo) :
    (stage2State O song).issued =
      filterFalsy
        (stage1Queries (cleanTitle (pyStrip song.title))
            (pyStrip song.artist) ++
          stage2Queries (cleanTitle (pyStrip song.title))
            (pyStrip song.artist)) := by
  unfold stage2State
  rw [processStage_issued, stage1State_issued, filterFalsy_append]

theorem stage3State_issued (O : SearchOracle) (song : SongInfo) :
    (stage3State O song).issued =
      filterFalsy
        (stage1Queries (cleanTitle (pyStrip song.title))
            (pyStrip song.artist) ++
          stage2Queries (cleanTitle (pyStrip song.title))
            (pyStrip song.artist)) ++ stage3Of song := by
  unfold stage3State
  by_cases hq : stage3Of song = []
  · rw [hq]
    simp [stage2State_issued]
  · have hne : ∀ x ∈ stage3Of song, x ≠ "" :=
      fun x hx => mem_uniqueStage3_ne hx
    rw [if_pos hq, processStage_issued, stage2State_issued,
      filterFalsy_map_some hne]

/-- C1 (amended): with a non-empty title, resolution returns the
*recorded* best-so-far candidate right after stage 1 when one has been
recorded and the highest score achieved is ≥ 0.85 (having issued only
the stage-1 queries), after stage 2 when a candidate is recorded and
the highest score is ≥ 0.75, and after exhausting stage 3 it returns
the recorded best candidate when one exists and the highest score is
≥ 0.65, and `None` otherwise.  (Recording can fail even though the
score was taken over — see the counterexample — which is why the
recorded-candidate condition cannot be dropped.) -/
theorem c1_staged_thresholds_amended (O : SearchOracle) (song : SongInfo)
    (h : pyStrip song.title ≠ "") :
    ((stage1State O song).best.isSome ∧ 17 / 20 ≤ (stage1State O song).high →
      searchSpotifyTrack O song =
        ((stage1State O song).best, stage1State O song) ∧
      (searchSpotifyTrack O song).2.issued =
        filterFalsy
          (stage1Queries (cleanTitle (pyStrip song.title))
            (pyStrip song.artist))) ∧
    (¬((stage1State O song).best.isSome ∧
        17 / 20 ≤ (stage1State O song).high) →
      (stage2State O song).best.isSome ∧ 3 / 4 ≤ (stage2State O song).high →
      searchSpotifyTrack O song =
        ((stage2State O song).best, stage2State O song) ∧
      (searchSpotifyTrack O song).2.issued =
        filterFalsy
          (stage1Queries (cleanTitle (pyStrip song.title))
              (pyStrip song.artist) ++
            stage2Queries (cleanTitle (pyStrip song.title))
              (pyStrip song.artist))) ∧
    (¬((stage1State O song).best.isSome ∧
        17 / 20 ≤ (stage1State O song).high) →
      ¬((stage2State O song).best.isSome ∧
        3 / 4 ≤ (stage2State O song).high) →
      searchSpotifyTrack O song =
        (if (stage3State O song).best.isSome ∧
            13 / 20 ≤ (stage3State O song).high then
          (stage3State O song).best
         else none, stage3State O song) ∧
      (searchSpotifyTrack O song).2.issued =
        filterFalsy
          (stage1Queries (cleanTitle (pyStrip song.title))
              (pyStrip song.artist) ++
            stage2Queries (cleanTitle (pyStrip song.title))
              (pyStrip song.artist)) ++ stage3Of song) := by
  have he := searchSpotifyTrack_eq O song h
  refine ⟨?_, ?_, ?_⟩
  · intro hc1
    rw [he, if_pos hc1]
    exact ⟨rfl, stage1State_issued O song⟩
  · intro hc1 hc2
    rw [he, if_neg hc1, if_pos hc2]
    exact ⟨rfl, stage2State_issued O song⟩
  · intro hc1 hc2
    rw [he, if_neg hc1, if_neg hc2]
    constructor
    · by_cases hc3 : (stage3State O song).best.isSome ∧
          13 / 20 ≤ (stage3State O song).high
      · rw [if_pos hc3, if_pos hc3]
      · rw [if_neg hc3, if_neg hc3]
    · by_cases hc3 : (stage3State O song).best.isSome ∧
          13 / 20 ≤ (stage3State O song).high
      · rw [if_pos hc3]
        exact stage3State_issued O song
      · rw [if_neg hc3]
        exact stage3State_issued O song

/-- C1 witness: an immediately matching stage-1 search (title and
artist identical, candidate recorded) exits after the single stage-1
query. -/
theorem c1_staged_thresholds_amended_witness :
    searchSpotifyTrack (fun _ => .ok [⟨"2", "ab", [⟨"cd"⟩], 0, "u2"⟩])
        { title := "ab", artist := "cd" } =
      ((stage1State (fun _ => .ok [⟨"2", "ab", [⟨"cd"⟩], 0, "u2"⟩])
          { title := "ab", artist := "cd" }).best,
        stage1State (fun _ => .ok [⟨"2", "ab", [⟨"cd"⟩], 0, "u2"⟩])
          { title := "ab", artist := "cd" }) ∧
    (searchSpotifyTrack (fun _ => .ok [⟨"2", "ab", [⟨"cd"⟩], 0, "u2"⟩])
        { title := "ab", artist := "cd" }).2.issued =
      ["track:\"ab\" artist:\"cd\""] := by
  have h := (c1_staged_thresholds_amended
      (fun _ => .ok [⟨"2", "ab", [⟨"cd"⟩], 0, "u2"⟩])
      { title := "ab", artist := "cd" } (by decide)).1 ⟨by decide, by decide⟩
  refine ⟨h.1, ?_⟩
  rw [h.2]
  decide

/-! ## Lemmas: `find_longest_match` window bounds -/

/-- Indexed invariant preservation along `foldl` over `range'`. -/
theorem foldl_range'_inv {α : Type} (f : α → Nat → α) (P : Nat → α → Prop) :
    ∀ (n lo : Nat) (s0 : α), P lo s0 →
      (∀ i s, lo ≤ i → i < lo + n → P i s → P (i + 1) (f s i)) →
      P (lo + n) ((List.range' lo n).foldl f s0) := by
  intro n
  induction n with
  | zero => intro lo s0 h0 _; simpa using h0
  | succ n ih =>
    intro lo s0 h0 hstep
    have h1 : P (lo + 1) (f s0 lo) :=
      hstep lo s0 (le_refl lo) (by omega) h0
    have h2 := ih (lo + 1) (f s0 lo) h1
      (fun i s hi1 hi2 hp => hstep i s (by omega) (by omega) hp)
    have hr : List.range' lo (n + 1) = lo :: List.range' (lo + 1) n := rfl
    rw [hr]
    simpa [Nat.add_assoc, Nat.add_comm 1 n] using h2

theorem posAux_ge {c : Char} :
    ∀ {xs : List Char} {k j : Nat}, j ∈ posAux c xs k → k ≤ j := by
  intro xs
  induction xs with
  | nil => intro k j h; simp [posAux] at h
  | cons x rest ih =>
    intro k j h
    unfold posAux at h
    by_cases hx : x = c
    · rw [if_pos hx] at h
      rcases List.mem_cons.mp h with h1 | h1
      · omega
      · have := ih h1; omega
    · rw [if_neg hx] at h
      have := ih h; omega

theorem posAux_lt {c : Char} :
    ∀ {xs : List Char} {k j : Nat}, j ∈ posAux c xs k → j < k + xs.length := by
  intro xs
  induction xs with
  | nil => intro k j h; simp [posAux] at h
  | cons x rest ih =>
    intro k j h
    unfold posAux at h
    by_cases hx : x = c
    · rw [if_pos hx] at h
      rw [List.length_cons]
      rcases List.mem_cons.mp h with h1 | h1
      · omega
      · have := ih h1; omega
    · rw [if_neg hx] at h
      rw [List.length_cons]
      have := ih h; omega

theorem posAux_pairwise {c : Char} :
    ∀ (xs : List Char) (k : Nat), (posAux c xs k).Pairwise (· < ·) := by
  intro xs
  induction xs with
  | nil => intro k; simp [posAux]
  | cons x rest ih =>
    intro k
    unfold posAux
    by_cases hx : x = c
    · rw [if_pos hx]
      exact List.pairwise_cons.mpr
        ⟨fun j hj => by have := posAux_ge hj; omega, ih (k + 1)⟩
    · rw [if_neg hx]
      exact ih (k + 1)

theorem posAux_self {d : Char} :
    ∀ (xs : List Char) (i k : Nat), i < xs.length →
      k + i ∈ posAux (xs.getD i d) xs k := by
  intro xs
  induction xs with
  | nil => intro i k h; simp at h
  | cons x rest ih =>
    intro i k h
    cases i with
    | zero =>
      unfold posAux
      rw [if_pos (by rfl)]
      simp
    | succ i =>
      have hi : i < rest.length := by simpa using h
      have hmem := ih i (k + 1) hi
      have hg : (x :: rest).getD (i + 1) d = rest.getD i d := rfl
      rw [hg]
      unfold posAux
      have hx : k + (i + 1) = (k + 1) + i := by omega
      by_cases hxc : x = rest.getD i d
      · rw [if_pos hxc, hx]
        exact List.mem_cons_of_mem _ hmem
      · rw [if_neg hxc, hx]
        exact hmem

theorem positions_lt {b : List Char} {c : Char} {j : Nat}
    (h : j ∈ positions b c) : j < b.length := by
  have := posAux_lt h
  simpa using this

theorem positions_pairwise (b : List Char) (c : Char) :
    (positions b c).Pairwise (· < ·) := posAux_pairwise b 0

theorem positions_self {b : List Char} {d : Char} {i : Nat}
    (h : i < b.length) : i ∈ positions b (b.getD i d) := by
  have := posAux_self (d := d) b i 0 h
  simpa using this

theorem mem_takeWhile_pred {α : Type} {p : α → Bool} :
    ∀ {l : List α} {x : α}, x ∈ l.takeWhile p → p x = true := by
  intro l
  induction l with
  | nil => intro x h; simp [List.takeWhile] at h
  | cons y rest ih =>
    intro x h
    rw [List.takeWhile] at h
    by_cases hy : p y
    · rw [hy] at h
      simp only [cond_true] at h
      rcases List.mem_cons.mp h with h1 | h1
      · rwa [h1]
      · exact ih h1
    · rw [Bool.not_eq_true] at hy
      rw [hy] at h
      simp at h

theorem takeWhile_eq_self_of_all {α : Type} {p : α → Bool} :
    ∀ {l : List α}, (∀ x ∈ l, p x = true) → l.takeWhile p = l := by
  intro l
  induction l with
  | nil => intro _; rfl
  | cons y rest ih =>
    intro h
    rw [List.takeWhile, h y (List.mem_cons_self y rest)]
    simp only [cond_true]
    rw [ih fun x hx => h x (List.mem_cons_of_mem _ hx)]

theorem mem_rowJs {b : List Char} {c : Char} {blo bhi j : Nat}
    (h : j ∈ rowJs b c blo bhi) : blo ≤ j ∧ j < bhi := by
  unfold rowJs at h
  have h1 := mem_takeWhile_pred h
  have h2 := (List.takeWhile_prefix _).sublist.subset h
  have h3 := List.of_mem_filter h2
  constructor
  · simpa using h3
  · simpa using h1

/-- In a full `b`-window the row visits exactly the positions of the
character. -/
theorem rowJs_full (b : List Char) (c : Char) :
    rowJs b c 0 b.length = positions b c := by
  unfold rowJs
  rw [List.filter_eq_self.mpr fun j _ => by simp,
    takeWhile_eq_self_of_all fun j hj => by
      simpa using positions_lt hj]

/-- One inner sweep step keeps the best block inside the window and the
chain lengths bounded by the number of processed rows and by the
`b`-window offset. -/
theorem innerStep_ok {alo ahi blo bhi i : Nat} {mPrev : Nat → Nat}
    (hi1 : alo ≤ i) (hi2 : i < ahi)
    (hm : ∀ x, mPrev x ≤ i - alo ∧ mPrev x ≤ x + 1 - blo)
    {sm : FlmState × (Nat → Nat)} {j : Nat} (hj1 : blo ≤ j) (hj2 : j < bhi)
    (hok : stOk alo ahi blo bhi sm.1)
    (hnew : ∀ x, sm.2 x ≤ i + 1 - alo ∧ sm.2 x ≤ x + 1 - blo) :
    stOk alo ahi blo bhi (innerStep mPrev i sm j).1 ∧
    ∀ x, (innerStep mPrev i sm j).2 x ≤ i + 1 - alo ∧
      (innerStep mPrev i sm j).2 x ≤ x + 1 - blo := by
  have hk1 : (if j = 0 then 0 else mPrev (j - 1)) + 1 ≤ i + 1 - alo := by
    by_cases hj0 : j = 0
    · rw [if_pos hj0]; omega
    · rw [if_neg hj0]
      have := (hm (j - 1)).1
      omega
  have hk2 : (if j = 0 then 0 else mPrev (j - 1)) + 1 ≤ j + 1 - blo := by
    by_cases hj0 : j = 0
    · rw [if_pos hj0]; omega
    · rw [if_neg hj0]
      have := (hm (j - 1)).2
      omega
  obtain ⟨ho1, ho2, ho3, ho4⟩ := hok
  constructor
  · simp only [innerStep]
    generalize hKg : (if j = 0 then 0 else mPrev (j - 1)) + 1 = K
    rw [hKg] at hk1 hk2
    split_ifs with hlt
    · refine ⟨?_, ?_, ?_, ?_⟩ <;> dsimp only <;> omega
    · exact ⟨ho1, ho2, ho3, ho4⟩
  · intro x
    simp only [innerStep]
    generalize hKg : (if j = 0 then 0 else mPrev (j - 1)) + 1 = K
    rw [hKg] at hk1 hk2
    split_ifs with hx
    · exact ⟨hk1, hx ▸ hk2⟩
    · exact hnew x

/-- The dynamic-programming sweep returns a block inside the window. -/
theorem flmDict_ok (a b : List Char) (alo ahi blo bhi : Nat)
    (ha : alo ≤ ahi) (hb : blo ≤ bhi) :
    stOk alo ahi blo bhi (flmDict a b alo ahi blo bhi) := by
  unfold flmDict
  have key := foldl_range'_inv
    (f := fun sm i => ((rowJs b (a.getD i 'A') blo bhi).foldl
      (innerStep sm.2 i) (sm.1, fun _ => 0)))
    (P := fun i sm => stOk alo ahi blo bhi sm.1 ∧
      ∀ x, sm.2 x ≤ i - alo ∧ sm.2 x ≤ x + 1 - blo)
    (ahi - alo) alo ((⟨alo, blo, 0⟩ : FlmState), fun _ => 0)
    ⟨⟨le_refl alo, by simp; omega, le_refl blo, by simp; omega⟩,
      fun x => ⟨Nat.zero_le _, Nat.zero_le _⟩⟩
    (fun i sm hi1 hi2 hP => by
      obtain ⟨hok, hm⟩ := hP
      have inner := List.foldlRecOn
        (motive := fun sm' => stOk alo ahi blo bhi sm'.1 ∧
          ∀ x, sm'.2 x ≤ i + 1 - alo ∧ sm'.2 x ≤ x + 1 - blo)
        (rowJs b (a.getD i 'A') blo bhi) (innerStep sm.2 i)
        (sm.1, fun _ => 0)
        ⟨hok, fun x => ⟨Nat.zero_le _, Nat.zero_le _⟩⟩
        (fun sm' hsm' j hj => by
          have hjb := mem_rowJs hj
          exact innerStep_ok hi1 (by omega) hm hjb.1 hjb.2 hsm'.1 hsm'.2)
      exact ⟨inner.1, inner.2⟩)
  exact key.1

/-- The left extension loop keeps the block inside the window. -/
theorem extLeft_ok (a b : List Char) (alo blo : Nat) {ahi bhi : Nat} :
    ∀ (fuel : Nat) (st : FlmState), stOk alo ahi blo bhi st →
      stOk alo ahi blo bhi (extLeft a b alo blo fuel st) := by
  intro fuel
  induction fuel with
  | zero => intro st h; exact h
  | succ fuel ih =>
    intro st h
    unfold extLeft
    split_ifs with hc
    · apply ih
      obtain ⟨h1, h2, h3, h4⟩ := h
      obtain ⟨hc1, hc2, _⟩ := hc
      exact ⟨show alo ≤ st.besti - 1 by omega,
        show st.besti - 1 + (st.bestsize + 1) ≤ ahi by omega,
        show blo ≤ st.bestj - 1 by omega,
        show st.bestj - 1 + (st.bestsize + 1) ≤ bhi by omega⟩
    · exact h

/-- The right extension loop keeps the block inside the window. -/
theorem extRight_ok (a b : List Char) (ahi bhi : Nat) {alo blo : Nat} :
    ∀ (fuel : Nat) (st : FlmState), stOk alo ahi blo bhi st →
      stOk alo ahi blo bhi (extRight a b ahi bhi fuel st) := by
  intro fuel
  induction fuel with
  | zero => intro st h; exact h
  | succ fuel ih =>
    intro st h
    unfold extRight
    split_ifs with hc
    · apply ih
      obtain ⟨h1, h2, h3, h4⟩ := h
      obtain ⟨hc1, hc2, _⟩ := hc
      exact ⟨show alo ≤ st.besti by omega,
        show st.besti + (st.bestsize + 1) ≤ ahi by omega,
        show blo ≤ st.bestj by omega,
        show st.bestj + (st.bestsize + 1) ≤ bhi by omega⟩
    · exact h

/-- `find_longest_match` returns a block inside its window. -/
theorem flm_ok (a b : List Char) {alo ahi blo bhi : Nat}
    (ha : alo ≤ ahi) (hb : blo ≤ bhi) :
    stOk alo ahi blo bhi (flm a b alo ahi blo bhi) := by
  unfold flm
  exact extRight_ok a b ahi bhi _ _
    (extLeft_ok a b alo blo _ _ (flmDict_ok a b alo ahi blo bhi ha hb))

/-- The matching-blocks total is bounded by both window widths. -/
theorem matchesSum_le (a b : List Char) :
    ∀ (fuel alo ahi blo bhi : Nat), alo ≤ ahi → blo ≤ bhi →
      matchesSum a b fuel alo ahi blo bhi ≤ ahi - alo ∧
      matchesSum a b fuel alo ahi blo bhi ≤ bhi - blo := by
  intro fuel
  induction fuel with
  | zero =>
    intro alo ahi blo bhi ha hb
    simp [matchesSum]
  | succ fuel ih =>
    intro alo ahi blo bhi ha hb
    rw [matchesSum]
    split_ifs with h0
    · constructor <;> omega
    · obtain ⟨h1, h2, h3, h4⟩ := flm_ok a b ha hb
      have ihl := ih alo (flm a b alo ahi blo bhi).besti blo
        (flm a b alo ahi blo bhi).bestj h1 h3
      have ihr := ih ((flm a b alo ahi blo bhi).besti +
          (flm a b alo ahi blo bhi).bestsize) ahi
        ((flm a b alo ahi blo bhi).bestj +
          (flm a b alo ahi blo bhi).bestsize) bhi h2 h4
      constructor <;> omega

/-- The sequence-matcher ratio is non-negative. -/
theorem difflibRatio_nonneg (sa sb : String) : 0 ≤ difflibRatio sa sb := by
  simp only [difflibRatio]
  split_ifs with h
  · norm_num
  · positivity

/-- The sequence-matcher ratio is at most one. -/
theorem difflibRatio_le_one (sa sb : String) : difflibRatio sa sb ≤ 1 := by
  simp only [difflibRatio]
  split_ifs with h
  · norm_num
  · have hm := matchesSum_le sa.data sb.data
      (sa.data.length + sb.data.length + 1) 0 sa.data.length 0
      sb.data.length (Nat.zero_le _) (Nat.zero_le _)
    have hpos : (0 : ℚ) < ↑sa.data.length + ↑sb.data.length := by
      have := Nat.pos_of_ne_zero h
      exact_mod_cast this
    rw [div_le_one hpos]
    have h2 : 2 * matchesSum sa.data sb.data
        (sa.data.length + sb.data.length + 1) 0 sa.data.length 0
        sb.data.length ≤ sa.data.length + sb.data.length := by omega
    exact_mod_cast h2

/-! ## Lemmas: the ratio of a string with itself is 1

For `a = b` (full windows) the diagonal chain of the `j2len` sweep
dominates every other chain, so `find_longest_match` returns the whole
string and the matching-blocks total is the full length. -/

/-- A strictly sorted list splits around any member. -/
theorem sorted_split {l : List Nat} (hp : l.Pairwise (· < ·)) {i : Nat}
    (hm : i ∈ l) :
    ∃ l1 l2, l = l1 ++ i :: l2 ∧ (∀ j ∈ l1, j < i) ∧ ∀ j ∈ l2, i < j := by
  induction l with
  | nil => simp at hm
  | cons x rest ih =>
    obtain ⟨hx, hrest⟩ := List.pairwise_cons.mp hp
    rcases List.mem_cons.mp hm with h1 | h1
    · exact ⟨[], rest, by rw [h1]; rfl, by simp,
        fun j hj => by have := hx j hj; omega⟩
    · obtain ⟨l1, l2, heq, hl1, hl2⟩ := ih hrest h1
      refine ⟨x :: l1, l2, by rw [heq]; rfl, ?_, hl2⟩
      intro j hj
      rcases List.mem_cons.mp hj with h2 | h2
      · have := hx i h1
        omega
      · exact hl1 j h2

/-- Rows `j < i` of the sweep cannot beat the running diagonal best of
size `i`. -/
theorem innerFold_low {i : Nat} {mPrev : Nat → Nat}
    (hB : ∀ x, mPrev x ≤ x + 1) :
    ∀ (l : List Nat), (∀ j ∈ l, j < i) →
      ∀ (m : Nat → Nat), (∀ x, m x ≤ i + 1 ∧ m x ≤ x + 1) →
      (l.foldl (innerStep mPrev i) ((⟨0, 0, i⟩ : FlmState), m)).1 =
        ⟨0, 0, i⟩ ∧
      ∀ x, (l.foldl (innerStep mPrev i) ((⟨0, 0, i⟩ : FlmState), m)).2 x ≤
          i + 1 ∧
        (l.foldl (innerStep mPrev i) ((⟨0, 0, i⟩ : FlmState), m)).2 x ≤
          x + 1 := by
  intro l
  induction l with
  | nil => intro _ m hm; exact ⟨rfl, hm⟩
  | cons j rest ih =>
    intro hl m hm
    have hj : j < i := hl j (List.mem_cons_self j rest)
    have hk1 : (if j = 0 then 0 else mPrev (j - 1)) + 1 ≤ i := by
      by_cases hj0 : j = 0
      · rw [if_pos hj0]; omega
      · rw [if_neg hj0]
        have := hB (j - 1)
        omega
    have hk2 : (if j = 0 then 0 else mPrev (j - 1)) + 1 ≤ j + 1 := by
      by_cases hj0 : j = 0
      · rw [if_pos hj0]; omega
      · rw [if_neg hj0]
        have := hB (j - 1)
        omega
    have hstep : innerStep mPrev i ((⟨0, 0, i⟩ : FlmState), m) j =
        ((⟨0, 0, i⟩ : FlmState),
          fun x => if x = j then (if j = 0 then 0 else mPrev (j - 1)) + 1
            else m x) := by
      have hng : ¬ ((⟨0, 0, i⟩ : FlmState).bestsize <
          (if j = 0 then 0 else mPrev (j - 1)) + 1) := by
        dsimp only
        omega
      simp only [innerStep, if_neg hng]
    rw [List.foldl_cons, hstep]
    apply ih (fun j' hj' => hl j' (List.mem_cons_of_mem _ hj'))
    intro x
    by_cases hx : x = j
    · rw [if_pos hx]
      exact ⟨by omega, by rw [hx]; omega⟩
    · rw [if_neg hx]
      exact hm x

/-- Rows `j > i` of the sweep cannot beat the diagonal best of size
`i + 1`, and do not touch the diagonal chain entry. -/
theorem innerFold_high {i : Nat} {mPrev : Nat → Nat}
    (hA : ∀ x, mPrev x ≤ i) (hB : ∀ x, mPrev x ≤ x + 1) :
    ∀ (l : List Nat), (∀ j ∈ l, i < j) →
      ∀ (m : Nat → Nat), (∀ x, m x ≤ i + 1 ∧ m x ≤ x + 1) → m i = i + 1 →
      (l.foldl (innerStep mPrev i) ((⟨0, 0, i + 1⟩ : FlmState), m)).1 =
        ⟨0, 0, i + 1⟩ ∧
      (∀ x, (l.foldl (innerStep mPrev i)
          ((⟨0, 0, i + 1⟩ : FlmState), m)).2 x ≤ i + 1 ∧
        (l.foldl (innerStep mPrev i)
          ((⟨0, 0, i + 1⟩ : FlmState), m)).2 x ≤ x + 1) ∧
      (l.foldl (innerStep mPrev i) ((⟨0, 0, i + 1⟩ : FlmState), m)).2 i =
        i + 1 := by
  intro l
  induction l with
  | nil => intro _ m hm hmi; exact ⟨rfl, hm, hmi⟩
  | cons j rest ih =>
    intro hl m hm hmi
    have hj : i < j := hl j (List.mem_cons_self j rest)
    have hj0 : ¬ j = 0 := by omega
    have hk1 : (if j = 0 then 0 else mPrev (j - 1)) + 1 ≤ i + 1 := by
      rw [if_neg hj0]
      have := hA (j - 1)
      omega
    have hk2 : (if j = 0 then 0 else mPrev (j - 1)) + 1 ≤ j + 1 := by
      rw [if_neg hj0]
      have := hB (j - 1)
      omega
    have hstep : innerStep mPrev i ((⟨0, 0, i + 1⟩ : FlmState), m) j =
        ((⟨0, 0, i + 1⟩ : FlmState),
          fun x => if x = j then (if j = 0 then 0 else mPrev (j - 1)) + 1
            else m x) := by
      have hng : ¬ ((⟨0, 0, i + 1⟩ : FlmState).bestsize <
          (if j = 0 then 0 else mPrev (j - 1)) + 1) := by
        dsimp only
        omega
      simp only [innerStep, if_neg hng]
    rw [List.foldl_cons, hstep]
    apply ih (fun j' hj' => hl j' (List.mem_cons_of_mem _ hj'))
    · intro x
      by_cases hx : x = j
      · rw [if_pos hx]
        exact ⟨hk1, by rw [hx]; exact hk2⟩
      · rw [if_neg hx]
        exact hm x
    · rw [if_neg (by omega : ¬ i = j)]
      exact hmi

/-- The diagonal step: at `j = i` the chain reaches `i + 1` and the
best block becomes `(0, 0, i + 1)`. -/
theorem innerStep_diag {i : Nat} {mPrev : Nat → Nat} {m : Nat → Nat}
    (hD : (if i = 0 then 0 else mPrev (i - 1)) = i) :
    innerStep mPrev i ((⟨0, 0, i⟩ : FlmState), m) i =
      ((⟨0, 0, i + 1⟩ : FlmState),
        fun x => if x = i then i + 1 else m x) := by
  simp only [innerStep, hD]
  rw [Prod.mk.injEq]
  constructor
  · split_ifs with hcond
    · rw [FlmState.mk.injEq]
      exact ⟨by omega, by omega, rfl⟩
    · exfalso
      omega
  · rfl

/-- One full row of the sweep on the diagonal invariant. -/
theorem row_self {i : Nat} {mPrev : Nat → Nat}
    (hA : ∀ x, mPrev x ≤ i) (hB : ∀ x, mPrev x ≤ x + 1)
    (hD : (if i = 0 then 0 else mPrev (i - 1)) = i)
    {l l1 l2 : List Nat} (heq : l = l1 ++ i :: l2)
    (hl1 : ∀ j ∈ l1, j < i) (hl2 : ∀ j ∈ l2, i < j) :
    (l.foldl (innerStep mPrev i) ((⟨0, 0, i⟩ : FlmState), fun _ => 0)).1 =
      ⟨0, 0, i + 1⟩ ∧
    (∀ x, (l.foldl (innerStep mPrev i)
        ((⟨0, 0, i⟩ : FlmState), fun _ => 0)).2 x ≤ i + 1 ∧
      (l.foldl (innerStep mPrev i)
        ((⟨0, 0, i⟩ : FlmState), fun _ => 0)).2 x ≤ x + 1) ∧
    (l.foldl (innerStep mPrev i) ((⟨0, 0, i⟩ : FlmState), fun _ => 0)).2 i =
      i + 1 := by
  subst heq
  rw [List.foldl_append, List.foldl_cons]
  obtain ⟨hbest, hmap⟩ := innerFold_low hB l1 hl1 (fun _ => 0)
    (fun x => ⟨Nat.zero_le _, Nat.zero_le _⟩)
  set r1 := l1.foldl (innerStep mPrev i) ((⟨0, 0, i⟩ : FlmState), fun _ => 0)
    with hr1
  have hr1eq : r1 = ((⟨0, 0, i⟩ : FlmState), r1.2) := by
    rw [← hbest]
  rw [hr1eq, innerStep_diag hD]
  exact innerFold_high hA hB l2 hl2 _
    (fun x => by
      by_cases hx : x = i
      · rw [if_pos hx]
        exact ⟨le_refl _, by rw [hx]⟩
      · rw [if_neg hx]
        exact hmap x)
    (by rw [if_pos rfl])

/-- On identical sequences and full windows the sweep finds the whole
string. -/
theorem flmDict_self (a : List Char) :
    flmDict a a 0 a.length 0 a.length = ⟨0, 0, a.length⟩ := by
  unfold flmDict
  have key := foldl_range'_inv
    (f := fun sm i => ((rowJs a (a.getD i 'A') 0 a.length).foldl
      (innerStep sm.2 i) (sm.1, fun _ => 0)))
    (P := fun i sm => sm.1 = ⟨0, 0, i⟩ ∧ (∀ x, sm.2 x ≤ i) ∧
      (∀ x, sm.2 x ≤ x + 1) ∧ (if i = 0 then 0 else sm.2 (i - 1)) = i)
    (a.length - 0) 0 ((⟨0, 0, 0⟩ : FlmState), fun _ => 0)
    ⟨rfl, fun x => Nat.le_refl 0, fun x => Nat.zero_le _, by rw [if_pos rfl]⟩
    (fun i sm hi1 hi2 hP => by
      obtain ⟨hb, hA, hB, hD⟩ := hP
      have hi : i < a.length := by omega
      have hmem : i ∈ positions a (a.getD i 'A') := positions_self hi
      obtain ⟨l1, l2, heq, hl1, hl2⟩ :=
        sorted_split (positions_pairwise a (a.getD i 'A')) hmem
      have hrow := row_self hA hB hD heq hl1 hl2
      dsimp only
      rw [rowJs_full, hb]
      refine ⟨hrow.1, fun x => (hrow.2.1 x).1, fun x => (hrow.2.1 x).2, ?_⟩
      rw [if_neg (Nat.succ_ne_zero i)]
      simpa using hrow.2.2)
  have h1 := key.1
  simpa using h1

/-- `extLeft` is the identity when the block already touches the left
window edge. -/
theorem extLeft_stuck (a b : List Char) (alo blo : Nat)
    (fuel : Nat) (st : FlmState) (h : ¬ alo < st.besti) :
    extLeft a b alo blo fuel st = st := by
  cases fuel with
  | zero => rfl
  | succ fuel =>
    unfold extLeft
    rw [if_neg fun hc => h hc.1]

/-- `extRight` is the identity when the block already touches the right
window edge. -/
theorem extRight_stuck (a b : List Char) (ahi bhi : Nat)
    (fuel : Nat) (st : FlmState) (h : ¬ st.besti + st.bestsize < ahi) :
    extRight a b ahi bhi fuel st = st := by
  cases fuel with
  | zero => rfl
  | succ fuel =>
    unfold extRight
    rw [if_neg fun hc => h hc.1]

/-- `find_longest_match` of a sequence against itself on full windows
is the whole sequence. -/
theorem flm_self (a : List Char) :
    flm a a 0 a.length 0 a.length = ⟨0, 0, a.length⟩ := by
  simp only [flm, flmDict_self]
  rw [extLeft_stuck _ _ _ _ _ _ (by dsimp only; omega)]
  rw [extRight_stuck _ _ _ _ _ _ (by dsimp only; omega)]

/-- `find_longest_match` on an empty window finds nothing. -/
theorem flm_empty (a b : List Char) (alo blo : Nat) :
    flm a b alo alo blo blo = ⟨alo, blo, 0⟩ := by
  have hd : flmDict a b alo alo blo blo = ⟨alo, blo, 0⟩ := by
    unfold flmDict
    rw [Nat.sub_self]
    rfl
  simp only [flm, hd]
  rw [extLeft_stuck _ _ _ _ _ _ (by dsimp only; omega)]
  rw [extRight_stuck _ _ _ _ _ _ (by dsimp only; omega)]

/-- The matching-blocks total of an empty window is zero. -/
theorem matchesSum_empty (a b : List Char) (fuel alo blo : Nat) :
    matchesSum a b fuel alo alo blo blo = 0 := by
  cases fuel with
  | zero => rfl
  | succ fuel =>
    rw [matchesSum, flm_empty]
    rfl

/-- The sequence-matcher ratio of any string with itself is `1`. -/
theorem difflibRatio_self (s : String) : difflibRatio s s = 1 := by
  simp only [difflibRatio]
  split_ifs with h
  · rfl
  · have hn : s.data.length ≠ 0 := by omega
    have hms : matchesSum s.data s.data
        (s.data.length + s.data.length + 1) 0 s.data.length 0
        s.data.length = s.data.length := by
      rw [matchesSum, flm_self]
      rw [if_neg (by dsimp only; exact hn)]
      dsimp only
      simp only [Nat.zero_add]
      rw [matchesSum_empty, matchesSum_empty]
      omega
    rw [hms]
    have hq : (s.data.length : ℚ) ≠ 0 := Nat.cast_ne_zero.mpr hn
    have hd : (s.length : ℚ) ≠ 0 := by
      have he : s.length = s.data.length := rfl
      rw [he]
      exact hq
    field_simp
    ring

/-! ## C8: score bounds -/

theorem le_foldl_max : ∀ (l : List ℚ) (x : ℚ), x ≤ l.foldl max x := by
  intro l
  induction l with
  | nil => intro x; exact le_refl x
  | cons y ys ih =>
    intro x
    rw [List.foldl_cons]
    calc x ≤ max x y := le_max_left x y
    _ ≤ ys.foldl max (max x y) := ih (max x y)

theorem listMax_nonneg {l : List ℚ} (h : ∀ x ∈ l, 0 ≤ x) :
    0 ≤ listMax l := by
  cases l with
  | nil => exact le_refl 0
  | cons x xs =>
    calc (0 : ℚ) ≤ x := h x (List.mem_cons_self x xs)
    _ ≤ xs.foldl max x := le_foldl_max xs x

theorem titleTerm_nonneg (song : SongInfo) (t : Track) :
    0 ≤ titleTerm song t :=
  mul_nonneg (difflibRatio_nonneg _ _) (by norm_num)

theorem titleTerm_le (song : SongInfo) (t : Track) :
    titleTerm song t ≤ 3 / 5 := by
  unfold titleTerm
  have h := mul_le_mul_of_nonneg_right
    (difflibRatio_le_one (pyLowerStr (cleanTitle song.title))
      (pyLowerStr t.name))
    (by norm_num : (0 : ℚ) ≤ 3 / 5)
  simpa using h

theorem tfArtistTerm_nonneg (song : SongInfo) (t : Track) :
    0 ≤ tfArtistTerm song t := by
  simp only [tfArtistTerm]
  split_ifs with h
  · apply mul_nonneg _ (by norm_num)
    apply listMax_nonneg
    intro x hx
    simp only [List.mem_map] at hx
    obtain ⟨nm, _, hnm⟩ := hx
    rw [← hnm]
    exact difflibRatio_nonneg _ _
  · exact le_refl 0

theorem tfDurTerm_nonneg (song : SongInfo) (t : Track) :
    0 ≤ tfDurTerm song t := by
  unfold tfDurTerm
  split_ifs <;> norm_num

/-- C8 (amended): for every local/candidate pair the
`TrackFinder._calculate_match_score` total is non-negative and the
title contribution lies in [0, 0.6]; the title term is exactly 0.6 when
the *cleaned* local title and the candidate name agree
case-insensitively (the raw-title version of this clause is refuted by
the counterexample). -/
theorem c8_score_bounds_amended (song : SongInfo) (t : Track) :
    0 ≤ tfCalcScore song t ∧
    0 ≤ titleTerm song t ∧ titleTerm song t ≤ 3 / 5 ∧
    (pyLowerStr (cleanTitle song.title) = pyLowerStr t.name →
      titleTerm song t = 3 / 5) := by
  refine ⟨?_, titleTerm_nonneg song t, titleTerm_le song t, ?_⟩
  · unfold tfCalcScore
    have h1 := titleTerm_nonneg song t
    have h2 := tfArtistTerm_nonneg song t
    have h3 := tfDurTerm_nonneg song t
    linarith
  · intro h
    unfold titleTerm
    rw [h, difflibRatio_self]
    norm_num

/-- C8 witness: cleaned-title agreement up to case yields exactly
0.6. -/
theorem c8_score_bounds_amended_witness :
    titleTerm { title := "Song" } ⟨"7", "song", [], 0, "u7"⟩ = 3 / 5 :=
  (c8_score_bounds_amended _ _).2.2.2 (by decide)

/-- C8 counterexample: the local title `"Song [HD]"` and the candidate
name `"Song [HD]"` are identical (so identical case-insensitively), yet
the title term is `0.6 · ratio("song", "song [hd]") = 24/65 ≠ 0.6`,
because the scorer cleans the local title but not the candidate
name. -/
theorem c8_score_bounds_cex :
    pyLowerStr ({ title := "Song [HD]" } : SongInfo).title =
      pyLowerStr (⟨"3", "Song [HD]", [], 0, "u3"⟩ : Track).name ∧
    titleTerm { title := "Song [HD]" } ⟨"3", "Song [HD]", [], 0, "u3"⟩ ≠
      3 / 5 ∧
    titleTerm { title := "Song [HD]" } ⟨"3", "Song [HD]", [], 0, "u3"⟩ =
      24 / 65 := by
  refine ⟨rfl, ?_, ?_⟩ <;> decide

/-- C1 counterexample: `{title="abc", artist=""}` against a remote
whose sole response item has an *empty* artists list and an exactly
matching name.  Scoring awards 1.0 (0.6 title + 0.4 both-artists-absent)
and `highest_score_achieved` is updated, but building the best-match
dict raises `IndexError` on `artists[0]`, so no candidate is recorded:
the resolution issues stage-2 queries despite a stage-1 best-so-far
score of 1.0 ≥ 0.85, and finally returns `None` despite its best-so-far
score 1.0 ≥ 0.65 — contradicting the claim. -/
theorem c1_staged_thresholds_cex :
    (searchSpotifyTrack (fun _ => .ok [⟨"1", "abc", [], 0, "u1"⟩])
      { title := "abc" }).1 = none ∧
    (17 : ℚ) / 20 ≤ (stage1State (fun _ => .ok [⟨"1", "abc", [], 0, "u1"⟩])
      { title := "abc" }).high ∧
    (13 : ℚ) / 20 ≤ (searchSpotifyTrack
      (fun _ => .ok [⟨"1", "abc", [], 0, "u1"⟩]) { title := "abc" }).2.high ∧
    (searchSpotifyTrack (fun _ => .ok [⟨"1", "abc", [], 0, "u1"⟩])
      { title := "abc" }).2.issued.length = 2 := by
  decide

end SPC
